import Mathlib

/-!
Verification of the GRASP core of the C-SILSP solver
(`src/solvers/grasp_csilsp.py`).

Python floats are modelled by exact rationals (ℚ); the tolerances
`1e-6` and `1e-9` become the exact rationals `1/1000000` and
`1/1000000000`.  The wall clock, the random generator and the random
choice inside the RCL are external nondeterminism: they are modelled as
oracle parameters (`clock`, `picks`, `chkOuter`, `chkLS`, `pick`), and
the unbounded `while improved:` loop of the local search and the cursor
loop of the constructor are run on an explicit fuel that is universally
quantified in every theorem.
-/

namespace CSILSP

/-- `BIGM = 1e15` from `grasp_csilsp.py` line 7. -/
def BIGM : ℚ := 10 ^ 15

/-- `PENALTY = 1e6` from `grasp_csilsp.py` line 8. -/
def PENALTY : ℚ := 10 ^ 6

/-- Backward pass of `decode_solution` (lines 61-67): iterating periods
from last to first, accumulate remaining demand `R`; at a setup period
produce `min (C t) R` and subtract it from `R`.  Returns the production
plan `X` together with the final residual `R`.  The head of the lists is
processed last, exactly like `for t in range(T-1, -1, -1)`. -/
def backwardPass : List ℕ → List ℚ → List ℚ → List ℚ × ℚ
  | y_t :: ys, d_t :: ds, C_t :: Cs =>
      let r := backwardPass ys ds Cs
      let R := r.2 + d_t
      if y_t = 1 then (min C_t R :: r.1, R - min C_t R)
      else (0 :: r.1, R)
  | _, _, _ => ([], 0)

/-- Forward pass of `decode_solution` (lines 74-81): running inventory
balance `inv + X t - d t`; fails with the offending inventory value as
soon as it drops below `-1e-6`, otherwise records the inventory level. -/
def forwardPass : List ℚ → List ℚ → ℚ → Except ℚ (List ℚ)
  | X_t :: Xs, d_t :: ds, inv =>
      let inv' := inv + X_t - d_t
      if inv' < -(1 / 1000000) then .error inv'
      else
        match forwardPass Xs ds inv' with
        | .error e => .error e
        | .ok I => .ok (inv' :: I)
  | _, _, _ => .ok []

/-- Cost accumulation of `decode_solution` (lines 84-86):
`cost += s[t]*y[t] + p[t]*X[t] + h[t]*I[t]`. -/
def planCost : List ℕ → List ℚ → List ℚ → List ℚ → List ℚ → List ℚ → ℚ
  | y_t :: ys, s_t :: ss, p_t :: ps, h_t :: hs, X_t :: Xs, I_t :: Is =>
      s_t * (y_t : ℚ) + p_t * X_t + h_t * I_t + planCost ys ss ps hs Xs Is
  | _, _, _, _, _, _ => 0

/-- `decode_solution` (lines 41-88): the backward pass, the residual
check against the `1e-6` tolerance, the forward inventory balance, and
the exact cost.  `(None, None, score)` of the Python code becomes
`(none, none, score)`. -/
def decode_solution (y : List ℕ) (d C s p h : List ℚ) :
    Option (List ℚ) × Option (List ℚ) × ℚ :=
  let bw := backwardPass y d C
  if bw.2 > 1 / 1000000 then (none, none, BIGM + bw.2 * PENALTY)
  else
    match forwardPass bw.1 d 0 with
    | .error inv => (none, none, BIGM + |inv| * PENALTY)
    | .ok I => (some bw.1, some I, planCost y s p h bw.1 I)

/-- Demand of the lot that covers periods `t .. t+L-1`:
`dem = sum(d[t:end+1])` (line 116). -/
def lotDemand (d : List ℚ) (t L : ℕ) : ℚ :=
  ((List.range L).map fun i => d.getD (t + i) 0).sum

/-- `prod_cost = sum(p[k] * d[k] for k in range(t, end + 1))`
(line 125). -/
def lotProdCost (d p : List ℚ) (t L : ℕ) : ℚ :=
  ((List.range L).map fun i => p.getD (t + i) 0 * d.getD (t + i) 0).sum

/-- Holding-cost accumulation of lines 129-133: for `k` from `t+1` to
`end`, `cum += d[k]; hold_cost += h[k] * cum`. -/
def lotHoldCost (d h : List ℚ) (t L : ℕ) : ℚ :=
  (((List.range (L - 1)).map fun i => t + 1 + i).foldl
    (fun st k => (st.1 + d.getD k 0, st.2 + h.getD k 0 * (st.1 + d.getD k 0)))
    (0, 0)).2

/-- `avg_cost` (line 135). -/
def avgCost (d s p h : List ℚ) (t L : ℕ) : ℚ :=
  (s.getD t 0 + lotProdCost d p t L + lotHoldCost d h t L) /
    (lotDemand d t L + 1 / 1000000000)

/-- The candidate list evaluated at cursor `t`
(`greedy_randomized_construction`, lines 108-136): lot lengths `L` from
1 to `L_max` whose end stays inside the horizon (the `break` of line
114 is a filter because `end` grows with `L`), kept when the capacity
test `cap + 1e-6 < dem` of line 119 does not discard them, each paired
with its approximate average cost. -/
def candidatesAt (d C s p h : List ℚ) (L_max t : ℕ) : List (ℕ × ℚ) :=
  (((List.range' 1 L_max).filter fun L => t + L ≤ d.length).filter
      fun L => !decide (C.getD t 0 + 1 / 1000000 < lotDemand d t L)).map
    fun L => (L, avgCost d s p h t L)

/-- `c_min = min(c for _, c in candidates)` (line 144). -/
def listMin : List ℚ → ℚ
  | [] => 0
  | [c] => c
  | c :: c' :: rest => min c (listMin (c' :: rest))

/-- `c_max = max(c for _, c in candidates)` (line 145). -/
def listMax : List ℚ → ℚ
  | [] => 0
  | [c] => c
  | c :: c' :: rest => max c (listMax (c' :: rest))

/-- The restricted candidate list (lines 144-149): candidates whose
average cost is at most `c_min + alpha * (c_max - c_min + 1e-9)`. -/
def rclOf (cands : List (ℕ × ℚ)) (alpha : ℚ) : List ℕ :=
  (cands.filter fun lc =>
      decide (lc.2 ≤ listMin (cands.map Prod.snd) +
        alpha * (listMax (cands.map Prod.snd) -
          listMin (cands.map Prod.snd) + 1 / 1000000000))).map Prod.fst

/-- The cursor loop of `greedy_randomized_construction` (lines
107-153).  `pick k` models the `k`-th draw of `random.choice`; the
index into the RCL is reduced modulo its length.  `fuel` bounds the
number of loop iterations; every iteration advances the cursor by at
least one period, so `fuel = T` always runs the loop to completion. -/
def constructionLoop (d C s p h : List ℚ) (alpha : ℚ) (L_max : ℕ)
    (pick : ℕ → ℕ) : ℕ → ℕ → ℕ → List ℕ → List ℕ
  | 0, _, _, y => y
  | fuel + 1, t, k, y =>
      if t < d.length then
        if candidatesAt d C s p h L_max t = [] then
          constructionLoop d C s p h alpha L_max pick fuel (t + 1) k (y.set t 1)
        else
          constructionLoop d C s p h alpha L_max pick fuel
            (t + (rclOf (candidatesAt d C s p h L_max t) alpha).getD
              (pick k % (rclOf (candidatesAt d C s p h L_max t) alpha).length) 1)
            (k + 1) (y.set t 1)
      else y

/-- `greedy_randomized_construction` (lines 93-155): start with the
all-zero setup vector and the cursor at 0 and run the lot-placement
loop. -/
def greedy_randomized_construction (d C s p h : List ℚ) (alpha : ℚ)
    (L_max : ℕ) (pick : ℕ → ℕ) : List ℕ :=
  constructionLoop d C s p h alpha L_max pick d.length 0 0
    (List.replicate d.length 0)

/-- `y[t] ^= 1` (line 187). -/
def flipAt (y : List ℕ) (t : ℕ) : List ℕ := y.set t (y.getD t 0 ^^^ 1)

/-- The inner `for t in range(T)` loop of `local_search` (lines
182-194): deadline test, flip, decode, keep an improving flip and
restart, otherwise revert and continue.  `chk k` is the `k`-th
wall-clock deadline test of this `local_search` call.  Returns the
vector, the best cost, the improvement flag and the next deadline-test
index. -/
def lsSweep (d C s p h : List ℚ) (chk : ℕ → Bool) :
    List ℕ → ℕ → List ℕ → ℚ → List ℕ × ℚ × Bool × ℕ
  | [], k, y, best => (y, best, false, k)
  | t :: ts, k, y, best =>
      if chk k then (y, best, false, k + 1)
      else
        if (decode_solution (flipAt y t) d C s p h).2.2 < best then
          (flipAt y t, (decode_solution (flipAt y t) d C s p h).2.2, true,
            k + 1)
        else lsSweep d C s p h chk ts (k + 1) y best

/-- The outer `while improved` loop of `local_search` (lines 176-194)
with an explicit iteration fuel: the deadline is also tested at the top
of every sweep (line 178). -/
def lsLoop (d C s p h : List ℚ) (chk : ℕ → Bool) :
    ℕ → ℕ → List ℕ → ℚ → List ℕ × ℚ
  | 0, _, y, best => (y, best)
  | fuel + 1, k, y, best =>
      if chk k then (y, best)
      else
        match lsSweep d C s p h chk (List.range d.length) (k + 1) y best with
        | (y', best', improved, k') =>
            if improved then lsLoop d C s p h chk fuel k' y' best'
            else (y', best')

/-- `local_search` (lines 160-197): hill climbing over single-bit
flips, starting from the decoded cost of the input vector. -/
def local_search (y : List ℕ) (d C s p h : List ℚ) (chk : ℕ → Bool)
    (fuel : ℕ) : List ℕ × ℚ :=
  lsLoop d C s p h chk fuel 0 y (decode_solution y d C s p h).2.2

/-- The record returned by `grasp` (line 265). -/
structure GraspResult where
  best_y : List ℕ
  X : Option (List ℚ)
  I : Option (List ℚ)
  best_cost : ℚ
  log_convergencia : List (ℚ × ℚ)

/-- The `for it in range(max_iter)` loop of `grasp` (lines 235-260).
`chkOuter it` is the wall-clock deadline test at the top of iteration
`it`; `picks it` supplies the random draws of that iteration's
construction; `chkLS it` the deadline tests inside that iteration's
local search; `clock j` is the `j`-th elapsed-time reading used for a
convergence sample.  The state is `(best_y, best_cost,
log_convergencia)`. -/
def graspLoop (d C s p h : List ℚ) (alpha : ℚ) (L_max : ℕ)
    (picks : ℕ → ℕ → ℕ) (chkOuter : ℕ → Bool) (chkLS : ℕ → ℕ → Bool)
    (lsFuel : ℕ) (clock : ℕ → ℚ) :
    ℕ → ℕ → List ℕ × ℚ × List (ℚ × ℚ) → List ℕ × ℚ × List (ℚ × ℚ)
  | 0, _, st => st
  | iters + 1, it, st =>
      if chkOuter it then st
      else
        if BIGM / 2 ≤
            (decode_solution
              (greedy_randomized_construction d C s p h alpha
                (min L_max d.length) (picks it)) d C s p h).2.2 then
          graspLoop d C s p h alpha L_max picks chkOuter chkLS lsFuel clock
            iters (it + 1) st
        else
          match local_search
              (greedy_randomized_construction d C s p h alpha
                (min L_max d.length) (picks it)) d C s p h (chkLS it)
              lsFuel with
          | (y, cost) =>
              if cost < st.2.1 then
                graspLoop d C s p h alpha L_max picks chkOuter chkLS lsFuel
                  clock iters (it + 1)
                  (y, cost, st.2.2 ++ [(clock (it + 1), cost)])
              else
                graspLoop d C s p h alpha L_max picks chkOuter chkLS lsFuel
                  clock iters (it + 1) st

/-- `grasp` (lines 202-265): start from the all-ones fallback, record
the first convergence sample at elapsed time plus `1e-6` (line 233),
run the multi-start loop, and decode the best vector once more for the
returned plan. -/
def grasp (d C s p h : List ℚ) (max_iter : ℕ) (alpha : ℚ) (L_max : ℕ)
    (picks : ℕ → ℕ → ℕ) (chkOuter : ℕ → Bool) (chkLS : ℕ → ℕ → Bool)
    (lsFuel : ℕ) (clock : ℕ → ℚ) : GraspResult :=
  let y0 := List.replicate d.length 1
  let c0 := (decode_solution y0 d C s p h).2.2
  let st := graspLoop d C s p h alpha L_max picks chkOuter chkLS lsFuel clock
    max_iter 0 (y0, c0, [(clock 0 + 1 / 1000000, c0)])
  { best_y := st.1
    X := (decode_solution st.1 d C s p h).1
    I := (decode_solution st.1 d C s p h).2.1
    best_cost := st.2.1
    log_convergencia := st.2.2 }

/-- Feasibility flag reported by the runner (line 360):
`factivel = cost < BIGM / 2`. -/
def factivel (cost : ℚ) : Bool := decide (cost < BIGM / 2)

/-! Specification-side decoder, transcribed from the words of spec
§4.1 for the refinement claim: index-based loops
`for t in range(T-1, -1, -1)` and `for t in range(T)` over arrays
preallocated with `[0.0] * T`, and the cost as a Σ over `range T`. -/

/-- One backward step of spec §4.1 step 1 at period `t`: add `d[t]` to
`R`; if `y[t] = 1`, write `X[t] = min(C[t], R)` and subtract it from
`R`. -/
def bstep (y : List ℕ) (d C : List ℚ) (st : List ℚ × ℚ) (t : ℕ) :
    List ℚ × ℚ :=
  if y.getD t 0 = 1 then
    (st.1.set t (min (C.getD t 0) (st.2 + d.getD t 0)),
      st.2 + d.getD t 0 - min (C.getD t 0) (st.2 + d.getD t 0))
  else (st.1, st.2 + d.getD t 0)

/-- One forward step of spec §4.1 step 3 at period `t`:
`inv ← inv + X[t] − d[t]`, failing with the offending value when it
drops below `−1e-6`, otherwise recording `I[t] = inv`. -/
def fstep (X d : List ℚ) (st : Except ℚ (List ℚ × ℚ)) (t : ℕ) :
    Except ℚ (List ℚ × ℚ) :=
  match st with
  | .error e => .error e
  | .ok Iinv =>
      if Iinv.2 + X.getD t 0 - d.getD t 0 < -(1 / 1000000) then
        .error (Iinv.2 + X.getD t 0 - d.getD t 0)
      else
        .ok (Iinv.1.set t (Iinv.2 + X.getD t 0 - d.getD t 0),
          Iinv.2 + X.getD t 0 - d.getD t 0)

/-- The decoder as spec §4.1 words it: backward pass over
`t = T-1 .. 0`, residual tolerance test, forward pass over
`t = 0 .. T-1`, and `cost = Σ_t s[t]·y[t] + p[t]·X[t] + h[t]·I[t]`. -/
def decodeSpec (y : List ℕ) (d C s p h : List ℚ) :
    Option (List ℚ) × Option (List ℚ) × ℚ :=
  let T := d.length
  let bw := ((List.range T).reverse).foldl (bstep y d C)
    (List.replicate T 0, 0)
  if bw.2 > 1 / 1000000 then (none, none, BIGM + bw.2 * PENALTY)
  else
    match (List.range T).foldl (fstep bw.1 d)
        (Except.ok (List.replicate T 0, 0)) with
    | .error inv => (none, none, BIGM + |inv| * PENALTY)
    | .ok Iinv =>
        (some bw.1, some Iinv.1,
          ∑ t in Finset.range T,
            (s.getD t 0 * (y.getD t 0 : ℚ) + p.getD t 0 * bw.1.getD t 0 +
              h.getD t 0 * Iinv.1.getD t 0))

/-! Equation lemmas: the `let`-bindings of the definitions above unfold
definitionally, these restatements make them convenient for rewriting. -/

theorem backwardPass_nil (d C : List ℚ) : backwardPass [] d C = ([], 0) := rfl

theorem backwardPass_cons (y0 : ℕ) (ys : List ℕ) (d0 C0 : ℚ) (ds Cs : List ℚ) :
    backwardPass (y0 :: ys) (d0 :: ds) (C0 :: Cs) =
      if y0 = 1 then
        (min C0 ((backwardPass ys ds Cs).2 + d0) :: (backwardPass ys ds Cs).1,
          (backwardPass ys ds Cs).2 + d0 -
            min C0 ((backwardPass ys ds Cs).2 + d0))
      else (0 :: (backwardPass ys ds Cs).1, (backwardPass ys ds Cs).2 + d0) := by
  by_cases h1 : y0 = 1 <;> simp [backwardPass, h1]

theorem forwardPass_cons (X0 d0 inv : ℚ) (Xs ds : List ℚ) :
    forwardPass (X0 :: Xs) (d0 :: ds) inv =
      if inv + X0 - d0 < -(1 / 1000000) then .error (inv + X0 - d0)
      else
        match forwardPass Xs ds (inv + X0 - d0) with
        | .error e => .error e
        | .ok I => .ok ((inv + X0 - d0) :: I) := by
  by_cases hc : inv + X0 - d0 < -(1 / 1000000) <;> simp [forwardPass, hc]

theorem decode_solution_eq (y : List ℕ) (d C s p h : List ℚ) :
    decode_solution y d C s p h =
      if (backwardPass y d C).2 > 1 / 1000000 then
        (none, none, BIGM + (backwardPass y d C).2 * PENALTY)
      else
        match forwardPass (backwardPass y d C).1 d 0 with
        | .error inv => (none, none, BIGM + |inv| * PENALTY)
        | .ok I =>
            (some (backwardPass y d C).1, some I,
              planCost y s p h (backwardPass y d C).1 I) := rfl

/-! Basic facts about the backward and the forward pass. -/

/-- Telescoping: for equal-length inputs the final residual of the
backward pass is exactly total demand minus total production. -/
theorem backwardPass_snd_eq (y : List ℕ) (d C : List ℚ)
    (hy : y.length = d.length) (hC : C.length = d.length) :
    (backwardPass y d C).2 = d.sum - (backwardPass y d C).1.sum := by
  induction y generalizing d C with
  | nil =>
      cases d with
      | nil => simp [backwardPass_nil]
      | cons d0 ds => simp at hy
  | cons y0 ys ih =>
      cases d with
      | nil => simp at hy
      | cons d0 ds =>
          cases C with
          | nil => simp at hC
          | cons C0 Cs =>
              have hy' : ys.length = ds.length := by simpa using hy
              have hC' : Cs.length = ds.length := by simpa using hC
              have ihh := ih ds Cs hy' hC'
              rw [backwardPass_cons]
              by_cases h1 : y0 = 1 <;> simp [h1, List.sum_cons, ihh] <;> ring

/-- Production never exceeds capacity in total (capacities
non-negative). -/
theorem backwardPass_fst_sum_le (y : List ℕ) (d C : List ℚ)
    (hC : ∀ c ∈ C, 0 ≤ c) :
    (backwardPass y d C).1.sum ≤ C.sum := by
  induction y generalizing d C with
  | nil =>
      rw [backwardPass_nil]
      simpa using List.sum_nonneg hC
  | cons y0 ys ih =>
      cases d with
      | nil =>
          simp only [backwardPass]
          simpa using List.sum_nonneg hC
      | cons d0 ds =>
          cases C with
          | nil =>
              simp only [backwardPass]
              simp
          | cons C0 Cs =>
              have h0 : 0 ≤ C0 := hC C0 (by simp)
              have ihh := ih ds Cs (fun c hc => hC c (by simp [hc]))
              rw [backwardPass_cons]
              by_cases h1 : y0 = 1
              · rw [if_pos h1]
                simp only [List.sum_cons]
                have : min C0 ((backwardPass ys ds Cs).2 + d0) ≤ C0 :=
                  min_le_left _ _
                linarith
              · rw [if_neg h1]
                simp only [List.sum_cons]
                linarith

/-- With non-negative demands the residual of the backward pass is
never negative. -/
theorem backwardPass_snd_nonneg (y : List ℕ) (d C : List ℚ)
    (hd : ∀ x ∈ d, 0 ≤ x) :
    0 ≤ (backwardPass y d C).2 := by
  induction y generalizing d C with
  | nil => simp [backwardPass_nil]
  | cons y0 ys ih =>
      cases d with
      | nil => simp [backwardPass]
      | cons d0 ds =>
          cases C with
          | nil => simp [backwardPass]
          | cons C0 Cs =>
              have h0 : 0 ≤ d0 := hd d0 (by simp)
              have ihh := ih ds Cs (fun x hx => hd x (by simp [hx]))
              rw [backwardPass_cons]
              by_cases h1 : y0 = 1
              · rw [if_pos h1]
                have : min C0 ((backwardPass ys ds Cs).2 + d0) ≤
                    (backwardPass ys ds Cs).2 + d0 := min_le_right _ _
                simp only
                linarith
              · rw [if_neg h1]
                simp only
                linarith

/-- The forward pass only reports inventory levels strictly below the
`-1e-6` tolerance. -/
theorem forwardPass_error_lt (X d : List ℚ) (v e : ℚ)
    (he : forwardPass X d v = .error e) : e < -(1 / 1000000) := by
  induction X generalizing d v with
  | nil => simp [forwardPass] at he
  | cons X0 Xs ih =>
      cases d with
      | nil => simp [forwardPass] at he
      | cons d0 ds =>
          rw [forwardPass_cons] at he
          by_cases hc : v + X0 - d0 < -(1 / 1000000)
          · rw [if_pos hc] at he
            cases he
            exact hc
          · rw [if_neg hc] at he
            rcases hr : forwardPass Xs ds (v + X0 - d0) with e' | I
            · rw [hr] at he
              cases he
              exact ih ds (v + X0 - d0) hr
            · rw [hr] at he
              cases he

/-- If the start inventory dominates the final residual of the backward
pass and demands are non-negative, the forward pass succeeds. -/
theorem forwardPass_ok (y : List ℕ) (d C : List ℚ) (v : ℚ)
    (hy : y.length = d.length) (hC : C.length = d.length)
    (hd : ∀ x ∈ d, 0 ≤ x) (hv : (backwardPass y d C).2 ≤ v) :
    ∃ I, forwardPass (backwardPass y d C).1 d v = .ok I := by
  induction y generalizing d C v with
  | nil =>
      cases d with
      | nil => exact ⟨[], rfl⟩
      | cons d0 ds => simp at hy
  | cons y0 ys ih =>
      cases d with
      | nil => simp at hy
      | cons d0 ds =>
          cases C with
          | nil => simp at hC
          | cons C0 Cs =>
              have hy' : ys.length = ds.length := by simpa using hy
              have hC' : Cs.length = ds.length := by simpa using hC
              have hd' : ∀ x ∈ ds, 0 ≤ x := fun x hx => hd x (by simp [hx])
              have hRt : 0 ≤ (backwardPass ys ds Cs).2 :=
                backwardPass_snd_nonneg ys ds Cs hd'
              rw [backwardPass_cons] at hv ⊢
              by_cases h1 : y0 = 1
              · rw [if_pos h1] at hv ⊢
                simp only at hv ⊢
                set Rt := (backwardPass ys ds Cs).2 with hRtdef
                set m := min C0 (Rt + d0) with hm
                have hmle : m ≤ Rt + d0 := min_le_right _ _
                have hinv : Rt ≤ v + m - d0 := by linarith
                have hnlt : ¬ (v + m - d0 < -(1 / 1000000)) := by
                  have : (0:ℚ) < 1 / 1000000 := by norm_num
                  linarith
                obtain ⟨I, hI⟩ := ih ds Cs (v + m - d0) hy' hC' hd' hinv
                refine ⟨(v + m - d0) :: I, ?_⟩
                rw [forwardPass_cons, if_neg hnlt, hI]
              · rw [if_neg h1] at hv ⊢
                simp only at hv ⊢
                have hinv : (backwardPass ys ds Cs).2 ≤ v + 0 - d0 := by
                  linarith
                have hnlt : ¬ (v + 0 - d0 < -(1 / 1000000)) := by
                  have : (0:ℚ) < 1 / 1000000 := by norm_num
                  linarith
                obtain ⟨I, hI⟩ := ih ds Cs (v + 0 - d0) hy' hC' hd' hinv
                refine ⟨(v + 0 - d0) :: I, ?_⟩
                rw [forwardPass_cons, if_neg hnlt, hI]

/-- An infeasible decode (no plan returned) always scores strictly
above `BIGM`. -/
theorem decode_infeasible_gt (y : List ℕ) (d C s p h : List ℚ)
    (hnone : (decode_solution y d C s p h).1 = none) :
    BIGM < (decode_solution y d C s p h).2.2 := by
  rw [decode_solution_eq] at hnone ⊢
  by_cases hb : (backwardPass y d C).2 > 1 / 1000000
  · rw [if_pos hb] at hnone ⊢
    have hP : (0:ℚ) < PENALTY := by norm_num [PENALTY]
    have : 0 < (backwardPass y d C).2 * PENALTY := by
      apply mul_pos _ hP
      have : (0:ℚ) < 1 / 1000000 := by norm_num
      linarith
    simpa using this
  · rw [if_neg hb] at hnone ⊢
    rcases hr : forwardPass (backwardPass y d C).1 d 0 with e | I
    · have he : e < -(1 / 1000000) := forwardPass_error_lt _ _ _ _ hr
      have hP : (0:ℚ) < PENALTY := by norm_num [PENALTY]
      have habs : 0 < |e| := by
        rw [abs_pos]
        intro h0
        rw [h0] at he
        norm_num at he
      have : 0 < |e| * PENALTY := mul_pos habs hP
      show BIGM < BIGM + |e| * PENALTY
      linarith
    · rw [hr] at hnone
      exact Option.noConfusion hnone

theorem sub_min_eq_max (a b : ℚ) : a - min b a = max (a - b) 0 := by
  rcases le_total b a with hle | hle
  · rw [min_eq_left hle, max_eq_left (by linarith)]
  · rw [min_eq_right hle, max_eq_right (by linarith)]
    ring

/-- Residual of the backward pass under the all-ones setup vector: if
every prefix of the demands is covered by the same prefix of the
capacities up to a slack `b`, the final residual is at most
`max b 0`. -/
theorem backwardPass_ones_le (d C : List ℚ) (b : ℚ)
    (hC : C.length = d.length)
    (hpre : ∀ m : ℕ, (d.take m).sum ≤ (C.take m).sum + b) :
    (backwardPass (List.replicate d.length 1) d C).2 ≤ max b 0 := by
  induction d generalizing C b with
  | nil => simp [backwardPass_nil]
  | cons d0 ds ih =>
      cases C with
      | nil => simp at hC
      | cons C0 Cs =>
          have hC' : Cs.length = ds.length := by simpa using hC
          have h1 : d0 ≤ C0 + b := by
            have := hpre 1
            simpa using this
          have hpre' : ∀ m : ℕ, (ds.take m).sum ≤ (Cs.take m).sum +
              (b + C0 - d0) := by
            intro m
            have := hpre (m + 1)
            simp only [List.take_succ_cons, List.sum_cons] at this
            linarith
          have iht := ih Cs (b + C0 - d0) hC' hpre'
          simp only [List.length_cons, List.replicate_succ]
          rw [backwardPass_cons, if_pos rfl]
          simp only
          rw [sub_min_eq_max]
          apply max_le _ (le_max_right b 0)
          rcases le_total (b + C0 - d0) 0 with hb0 | hb0
          · rw [max_eq_right hb0] at iht
            have : b ≤ max b 0 := le_max_left b 0
            linarith
          · rw [max_eq_left hb0] at iht
            have : b ≤ max b 0 := le_max_left b 0
            linarith

/-- Claim C1, amended.  The amended hypothesis: not merely total
capacity at least total demand, but every prefix of the horizon has
cumulative capacity at least cumulative demand (demands non-negative,
as the data model requires).  Then decoding the all-ones setup vector
returns a plan: both `X` and `I` are present, i.e. the non-penalized
branch of `decode_solution` is taken, so the all-ones vector is a
feasible fallback. -/
theorem all_ones_feasible (d C s p h : List ℚ)
    (hC : C.length = d.length) (hd : ∀ x ∈ d, 0 ≤ x)
    (hpre : ∀ m : ℕ, (d.take m).sum ≤ (C.take m).sum) :
    (decode_solution (List.replicate d.length 1) d C s p h).1.isSome =
        true ∧
      (decode_solution (List.replicate d.length 1) d C s p h).2.1.isSome =
        true := by
  have hy : (List.replicate d.length 1 : List ℕ).length = d.length := by
    simp
  have hR : (backwardPass (List.replicate d.length 1) d C).2 ≤ 0 := by
    have := backwardPass_ones_le d C 0 hC (by simpa using hpre)
    simpa using this
  have hnb : ¬ ((backwardPass (List.replicate d.length 1) d C).2 >
      1 / 1000000) := by
    have : (0:ℚ) < 1 / 1000000 := by norm_num
    intro hgt
    linarith
  obtain ⟨I, hI⟩ := forwardPass_ok (List.replicate d.length 1) d C 0 hy hC
    hd hR
  rw [decode_solution_eq, if_neg hnb, hI]
  exact ⟨rfl, rfl⟩

/-- Claim C1, counterexample to the claim as stated.  The instance
`d = [10, 0]`, `C = [0, 10]` (all costs zero) has total capacity equal
to total demand (so total capacity ≥ total demand holds), demands and
capacities non-negative, yet decoding the all-ones setup vector returns
no plan and a penalized score at least `BIGM`: period 0 demand cannot
be produced because all capacity sits in period 1 and there is no
backlogging. -/
theorem all_ones_counterexample :
    ([(10:ℚ), 0].sum ≤ [(0:ℚ), 10].sum) ∧
      (decode_solution [1, 1] [10, 0] [0, 10] [0, 0] [0, 0] [0, 0]).1 =
        none ∧
      BIGM ≤
        (decode_solution [1, 1] [10, 0] [0, 10] [0, 0] [0, 0] [0, 0]).2.2 := by
  refine ⟨by norm_num, ?_, ?_⟩ <;>
    norm_num [decode_solution, backwardPass, forwardPass, planCost, BIGM,
      PENALTY]

/-- Witness for `all_ones_feasible` at the concrete instance
`d = [1, 1]`, `C = [2, 0]`. -/
theorem all_ones_feasible_witness :
    (decode_solution (List.replicate ([(1:ℚ), 1]).length 1) [1, 1] [2, 0]
          [0, 0] [0, 0] [0, 0]).1.isSome = true ∧
      (decode_solution (List.replicate ([(1:ℚ), 1]).length 1) [1, 1] [2, 0]
          [0, 0] [0, 0] [0, 0]).2.1.isSome = true := by
  apply all_ones_feasible [1, 1] [2, 0] [0, 0] [0, 0] [0, 0]
  · norm_num
  · intro x hx
    simp at hx
    norm_num [hx]
  · intro m
    rcases m with _ | _ | n <;>
      norm_num [List.take_succ_cons, List.take_nil]

/-- Claim C2, counterexample to the claim as stated.  On the instance
`d = [1]`, `C = [1]`, `s = [2·BIGM]`, `p = h = [0]`, the setup vector
`[1]` decodes to a feasible plan whose exact cost `2·BIGM` is larger
than the penalized score `BIGM + 1·PENALTY` of the infeasible vector
`[0]`: a feasible score is not always numerically smaller than an
infeasible one. -/
theorem feasible_lt_infeasible_counterexample :
    (decode_solution [1] [1] [1] [2 * BIGM] [0] [0]).1.isSome = true ∧
      (decode_solution [0] [1] [1] [2 * BIGM] [0] [0]).1 = none ∧
      (decode_solution [0] [1] [1] [2 * BIGM] [0] [0]).2.2 <
        (decode_solution [1] [1] [1] [2 * BIGM] [0] [0]).2.2 := by
  refine ⟨?_, ?_, ?_⟩ <;>
    norm_num [decode_solution, backwardPass, forwardPass, planCost, BIGM,
      PENALTY]

/-- Claim C2, amended: the invariant holds for every feasible score
that is below `BIGM` (which is what the spec's "realistic instance
magnitudes" proviso delimits): if `y₁` decodes to a plan with score
below `BIGM` and `y₂` decodes to no plan, the feasible score is
strictly smaller than the penalized one. -/
theorem feasible_lt_infeasible (d C s p h : List ℚ) (y₁ y₂ : List ℕ)
    (_hfeas : (decode_solution y₁ d C s p h).1.isSome = true)
    (hmag : (decode_solution y₁ d C s p h).2.2 < BIGM)
    (hinf : (decode_solution y₂ d C s p h).1 = none) :
    (decode_solution y₁ d C s p h).2.2 <
      (decode_solution y₂ d C s p h).2.2 :=
  lt_trans hmag (decode_infeasible_gt y₂ d C s p h hinf)

/-- Witness for `feasible_lt_infeasible` at the concrete instance
`d = [1]`, `C = [1]`, `s = [1]`, `p = h = [0]`, `y₁ = [1]`,
`y₂ = [0]`. -/
theorem feasible_lt_infeasible_witness :
    (decode_solution [1] [1] [1] [1] [0] [0]).2.2 <
      (decode_solution [0] [1] [1] [1] [0] [0]).2.2 := by
  apply feasible_lt_infeasible [1] [1] [1] [0] [0] [1] [0] <;>
    norm_num [decode_solution, backwardPass, forwardPass, planCost, BIGM,
      PENALTY]

/-! Local-search lemmas: the sweep and the outer loop never increase
the best cost, always keep the reported cost equal to the decoded cost
of the vector they carry, and preserve the vector length. -/

theorem lsSweep_best_le (d C s p h : List ℚ) (chk : ℕ → Bool)
    (ts : List ℕ) (k : ℕ) (y : List ℕ) (best : ℚ) :
    (lsSweep d C s p h chk ts k y best).2.1 ≤ best := by
  induction ts generalizing k with
  | nil => simp [lsSweep]
  | cons t ts ih =>
      rw [lsSweep]
      by_cases hchk : chk k
      · simp [hchk]
      · simp only [hchk, Bool.false_eq_true, if_false]
        by_cases himp : (decode_solution (flipAt y t) d C s p h).2.2 < best
        · simp only [himp, if_true]
          exact le_of_lt himp
        · simp only [himp, if_false]
          exact ih (k + 1)

theorem lsSweep_decode (d C s p h : List ℚ) (chk : ℕ → Bool)
    (ts : List ℕ) (k : ℕ) (y : List ℕ) (best : ℚ)
    (hbest : (decode_solution y d C s p h).2.2 = best) :
    (decode_solution (lsSweep d C s p h chk ts k y best).1 d C s p h).2.2 =
      (lsSweep d C s p h chk ts k y best).2.1 := by
  induction ts generalizing k with
  | nil => simpa [lsSweep] using hbest
  | cons t ts ih =>
      rw [lsSweep]
      by_cases hchk : chk k
      · simpa [hchk] using hbest
      · simp only [hchk, Bool.false_eq_true, if_false]
        by_cases himp : (decode_solution (flipAt y t) d C s p h).2.2 < best
        · simp [himp]
        · simp only [himp, if_false]
          exact ih (k + 1)

theorem lsSweep_length (d C s p h : List ℚ) (chk : ℕ → Bool)
    (ts : List ℕ) (k : ℕ) (y : List ℕ) (best : ℚ) :
    (lsSweep d C s p h chk ts k y best).1.length = y.length := by
  induction ts generalizing k with
  | nil => simp [lsSweep]
  | cons t ts ih =>
      rw [lsSweep]
      by_cases hchk : chk k
      · simp [hchk]
      · simp only [hchk, Bool.false_eq_true, if_false]
        by_cases himp : (decode_solution (flipAt y t) d C s p h).2.2 < best
        · rw [if_pos himp]
          simp [flipAt]
        · simp only [himp, if_false]
          exact ih (k + 1)

theorem lsLoop_best_le (d C s p h : List ℚ) (chk : ℕ → Bool)
    (fuel k : ℕ) (y : List ℕ) (best : ℚ) :
    (lsLoop d C s p h chk fuel k y best).2 ≤ best := by
  induction fuel generalizing k y best with
  | zero => simp [lsLoop]
  | succ fuel ih =>
      rw [lsLoop]
      by_cases hchk : chk k
      · simp [hchk]
      · simp only [hchk, Bool.false_eq_true, if_false]
        have hsw := lsSweep_best_le d C s p h chk (List.range d.length)
          (k + 1) y best
        rcases hr : lsSweep d C s p h chk (List.range d.length) (k + 1) y
            best with ⟨y', best', improved, k'⟩
        rw [hr] at hsw
        simp only at hsw ⊢
        by_cases himp : improved
        · simp only [himp, if_true]
          exact le_trans (ih k' y' best') hsw
        · simp only [himp, if_false]
          exact hsw

theorem lsLoop_decode (d C s p h : List ℚ) (chk : ℕ → Bool)
    (fuel k : ℕ) (y : List ℕ) (best : ℚ)
    (hbest : (decode_solution y d C s p h).2.2 = best) :
    (decode_solution (lsLoop d C s p h chk fuel k y best).1 d C s p h).2.2 =
      (lsLoop d C s p h chk fuel k y best).2 := by
  induction fuel generalizing k y best with
  | zero => simpa [lsLoop] using hbest
  | succ fuel ih =>
      rw [lsLoop]
      by_cases hchk : chk k
      · simpa [hchk] using hbest
      · simp only [hchk, Bool.false_eq_true, if_false]
        have hsw := lsSweep_decode d C s p h chk (List.range d.length)
          (k + 1) y best hbest
        rcases hr : lsSweep d C s p h chk (List.range d.length) (k + 1) y
            best with ⟨y', best', improved, k'⟩
        rw [hr] at hsw
        simp only at hsw ⊢
        by_cases himp : improved
        · simp only [himp, if_true]
          exact ih k' y' best' hsw
        · simp only [himp, if_false]
          exact hsw

theorem lsLoop_length (d C s p h : List ℚ) (chk : ℕ → Bool)
    (fuel k : ℕ) (y : List ℕ) (best : ℚ) :
    (lsLoop d C s p h chk fuel k y best).1.length = y.length := by
  induction fuel generalizing k y best with
  | zero => simp [lsLoop]
  | succ fuel ih =>
      rw [lsLoop]
      by_cases hchk : chk k
      · simp [hchk]
      · simp only [hchk, Bool.false_eq_true, if_false]
        have hsw := lsSweep_length d C s p h chk (List.range d.length)
          (k + 1) y best
        rcases hr : lsSweep d C s p h chk (List.range d.length) (k + 1) y
            best with ⟨y', best', improved, k'⟩
        rw [hr] at hsw
        simp only at hsw ⊢
        by_cases himp : improved
        · simp only [himp, if_true]
          rw [ih k' y' best']
          exact hsw
        · simp only [himp, if_false]
          exact hsw

theorem local_search_le (y : List ℕ) (d C s p h : List ℚ)
    (chk : ℕ → Bool) (fuel : ℕ) :
    (local_search y d C s p h chk fuel).2 ≤
      (decode_solution y d C s p h).2.2 :=
  lsLoop_best_le d C s p h chk fuel 0 y _

theorem local_search_decode (y : List ℕ) (d C s p h : List ℚ)
    (chk : ℕ → Bool) (fuel : ℕ) :
    (decode_solution (local_search y d C s p h chk fuel).1 d C s p h).2.2 =
      (local_search y d C s p h chk fuel).2 :=
  lsLoop_decode d C s p h chk fuel 0 y _ rfl

theorem local_search_length (y : List ℕ) (d C s p h : List ℚ)
    (chk : ℕ → Bool) (fuel : ℕ) :
    (local_search y d C s p h chk fuel).1.length = y.length :=
  lsLoop_length d C s p h chk fuel 0 y _

/-! Constructor and driver plumbing lemmas. -/

theorem constructionLoop_length (d C s p h : List ℚ) (alpha : ℚ)
    (L_max : ℕ) (pick : ℕ → ℕ) (fuel : ℕ) :
    ∀ (t k : ℕ) (y : List ℕ),
      (constructionLoop d C s p h alpha L_max pick fuel t k y).length =
        y.length := by
  induction fuel with
  | zero => intro t k y; simp [constructionLoop]
  | succ fuel ih =>
      intro t k y
      rw [constructionLoop]
      by_cases ht : t < d.length
      · rw [if_pos ht]
        by_cases hc : candidatesAt d C s p h L_max t = []
        · rw [if_pos hc, ih]
          simp
        · rw [if_neg hc, ih]
          simp
      · rw [if_neg ht]

theorem greedy_randomized_construction_length (d C s p h : List ℚ)
    (alpha : ℚ) (L_max : ℕ) (pick : ℕ → ℕ) :
    (greedy_randomized_construction d C s p h alpha L_max pick).length =
      d.length := by
  rw [greedy_randomized_construction, constructionLoop_length]
  simp

/-- Invariant of the driver loop: the carried best cost is always the
decoded cost of the carried best vector, and the best vector keeps the
instance length. -/
theorem graspLoop_inv (d C s p h : List ℚ) (alpha : ℚ) (L_max : ℕ)
    (picks : ℕ → ℕ → ℕ) (chkOuter : ℕ → Bool) (chkLS : ℕ → ℕ → Bool)
    (lsFuel : ℕ) (clock : ℕ → ℚ) (iters : ℕ) :
    ∀ (it : ℕ) (st : List ℕ × ℚ × List (ℚ × ℚ)),
      (decode_solution st.1 d C s p h).2.2 = st.2.1 →
      st.1.length = d.length →
      (decode_solution
            (graspLoop d C s p h alpha L_max picks chkOuter chkLS lsFuel
              clock iters it st).1 d C s p h).2.2 =
          (graspLoop d C s p h alpha L_max picks chkOuter chkLS lsFuel
            clock iters it st).2.1 ∧
        (graspLoop d C s p h alpha L_max picks chkOuter chkLS lsFuel
          clock iters it st).1.length = d.length := by
  induction iters with
  | zero => intro it st hdec hlen; exact ⟨hdec, hlen⟩
  | succ iters ih =>
      intro it st hdec hlen
      rw [graspLoop]
      by_cases hchk : chkOuter it
      · simp only [hchk, if_true]
        exact ⟨hdec, hlen⟩
      · simp only [hchk, Bool.false_eq_true, if_false]
        by_cases hskip : BIGM / 2 ≤
            (decode_solution
              (greedy_randomized_construction d C s p h alpha
                (min L_max d.length) (picks it)) d C s p h).2.2
        · rw [if_pos hskip]
          exact ih (it + 1) st hdec hlen
        · rw [if_neg hskip]
          rcases hls : local_search
              (greedy_randomized_construction d C s p h alpha
                (min L_max d.length) (picks it)) d C s p h (chkLS it)
              lsFuel with ⟨y', c'⟩
          have hdec' : (decode_solution y' d C s p h).2.2 = c' := by
            have := local_search_decode
              (greedy_randomized_construction d C s p h alpha
                (min L_max d.length) (picks it)) d C s p h (chkLS it) lsFuel
            rw [hls] at this
            exact this
          have hlen' : y'.length = d.length := by
            have := local_search_length
              (greedy_randomized_construction d C s p h alpha
                (min L_max d.length) (picks it)) d C s p h (chkLS it) lsFuel
            rw [hls] at this
            simp only at this
            rw [this, greedy_randomized_construction_length]
          by_cases himp : c' < st.2.1
          · rw [if_pos himp]
            exact ih (it + 1) (y', c', st.2.2 ++ [(clock (it + 1), c')])
              hdec' hlen'
          · rw [if_neg himp]
            exact ih (it + 1) st hdec hlen

/-- The record returned by `grasp`: the reported best cost is the
decoded cost of the reported best vector, and the returned `X`, `I`
are exactly the components of that decode; the best vector has the
instance length. -/
theorem grasp_decode_best (d C s p h : List ℚ) (max_iter : ℕ)
    (alpha : ℚ) (L_max : ℕ) (picks : ℕ → ℕ → ℕ) (chkOuter : ℕ → Bool)
    (chkLS : ℕ → ℕ → Bool) (lsFuel : ℕ) (clock : ℕ → ℚ) :
    (decode_solution
          (grasp d C s p h max_iter alpha L_max picks chkOuter chkLS
            lsFuel clock).best_y d C s p h).2.2 =
        (grasp d C s p h max_iter alpha L_max picks chkOuter chkLS lsFuel
          clock).best_cost ∧
      (grasp d C s p h max_iter alpha L_max picks chkOuter chkLS lsFuel
            clock).X =
        (decode_solution
          (grasp d C s p h max_iter alpha L_max picks chkOuter chkLS
            lsFuel clock).best_y d C s p h).1 ∧
      (grasp d C s p h max_iter alpha L_max picks chkOuter chkLS lsFuel
            clock).I =
        (decode_solution
          (grasp d C s p h max_iter alpha L_max picks chkOuter chkLS
            lsFuel clock).best_y d C s p h).2.1 ∧
      (grasp d C s p h max_iter alpha L_max picks chkOuter chkLS lsFuel
        clock).best_y.length = d.length := by
  have hbase := graspLoop_inv d C s p h alpha L_max picks chkOuter chkLS
    lsFuel clock max_iter 0
    (List.replicate d.length 1,
      (decode_solution (List.replicate d.length 1) d C s p h).2.2,
      [(clock 0 + 1 / 1000000,
        (decode_solution (List.replicate d.length 1) d C s p h).2.2)])
    rfl (by simp)
  exact ⟨hbase.1, rfl, rfl, hbase.2⟩

/-- The driver loop never increases the carried best cost. -/
theorem graspLoop_best_le (d C s p h : List ℚ) (alpha : ℚ) (L_max : ℕ)
    (picks : ℕ → ℕ → ℕ) (chkOuter : ℕ → Bool) (chkLS : ℕ → ℕ → Bool)
    (lsFuel : ℕ) (clock : ℕ → ℚ) (iters : ℕ) :
    ∀ (it : ℕ) (st : List ℕ × ℚ × List (ℚ × ℚ)),
      (graspLoop d C s p h alpha L_max picks chkOuter chkLS lsFuel clock
          iters it st).2.1 ≤ st.2.1 := by
  induction iters with
  | zero => intro it st; exact le_refl _
  | succ iters ih =>
      intro it st
      rw [graspLoop]
      by_cases hchk : chkOuter it
      · simp only [hchk, if_true]
        exact le_refl _
      · simp only [hchk, Bool.false_eq_true, if_false]
        by_cases hskip : BIGM / 2 ≤
            (decode_solution
              (greedy_randomized_construction d C s p h alpha
                (min L_max d.length) (picks it)) d C s p h).2.2
        · rw [if_pos hskip]
          exact ih (it + 1) st
        · rw [if_neg hskip]
          rcases hls : local_search
              (greedy_randomized_construction d C s p h alpha
                (min L_max d.length) (picks it)) d C s p h (chkLS it)
              lsFuel with ⟨y', c'⟩
          by_cases himp : c' < st.2.1
          · rw [if_pos himp]
            have := ih (it + 1) (y', c', st.2.2 ++ [(clock (it + 1), c')])
            simp only at this
            exact le_trans this (le_of_lt himp)
          · rw [if_neg himp]
            exact ih (it + 1) st

/-- Invariant of the convergence log along the driver loop: under a
monotone clock the log stays non-empty, chained (times non-decreasing,
costs non-increasing), its head is preserved, its last cost is the
carried best cost, and all its timestamps are bounded by the next clock
reading. -/
theorem graspLoop_log (d C s p h : List ℚ) (alpha : ℚ) (L_max : ℕ)
    (picks : ℕ → ℕ → ℕ) (chkOuter : ℕ → Bool) (chkLS : ℕ → ℕ → Bool)
    (lsFuel : ℕ) (clock : ℕ → ℚ)
    (hmono : ∀ i j : ℕ, i ≤ j → clock i ≤ clock j) (iters : ℕ) :
    ∀ (it : ℕ) (st : List ℕ × ℚ × List (ℚ × ℚ)) (h0 : ℚ × ℚ),
      st.2.2.head? = some h0 →
      List.Chain' (fun a b : ℚ × ℚ => a.1 ≤ b.1 ∧ b.2 ≤ a.2) st.2.2 →
      Option.map Prod.snd st.2.2.getLast? = some st.2.1 →
      (∀ e ∈ st.2.2, e.1 ≤ clock (it + 1)) →
      (graspLoop d C s p h alpha L_max picks chkOuter chkLS lsFuel clock
            iters it st).2.2.head? = some h0 ∧
        List.Chain' (fun a b : ℚ × ℚ => a.1 ≤ b.1 ∧ b.2 ≤ a.2)
          (graspLoop d C s p h alpha L_max picks chkOuter chkLS lsFuel
            clock iters it st).2.2 ∧
        Option.map Prod.snd
            (graspLoop d C s p h alpha L_max picks chkOuter chkLS lsFuel
              clock iters it st).2.2.getLast? =
          some (graspLoop d C s p h alpha L_max picks chkOuter chkLS
            lsFuel clock iters it st).2.1 := by
  induction iters with
  | zero => intro it st h0 hhead hchain hlast _; exact ⟨hhead, hchain, hlast⟩
  | succ iters ih =>
      intro it st h0 hhead hchain hlast htime
      have htime' : ∀ e ∈ st.2.2, e.1 ≤ clock (it + 2) := fun e he =>
        le_trans (htime e he) (hmono (it + 1) (it + 2) (by omega))
      rw [graspLoop]
      by_cases hchk : chkOuter it
      · simp only [hchk, if_true]
        exact ⟨hhead, hchain, hlast⟩
      · simp only [hchk, Bool.false_eq_true, if_false]
        by_cases hskip : BIGM / 2 ≤
            (decode_solution
              (greedy_randomized_construction d C s p h alpha
                (min L_max d.length) (picks it)) d C s p h).2.2
        · rw [if_pos hskip]
          exact ih (it + 1) st h0 hhead hchain hlast htime'
        · rw [if_neg hskip]
          rcases hls : local_search
              (greedy_randomized_construction d C s p h alpha
                (min L_max d.length) (picks it)) d C s p h (chkLS it)
              lsFuel with ⟨y', c'⟩
          by_cases himp : c' < st.2.1
          · rw [if_pos himp]
            apply ih (it + 1)
              (y', c', st.2.2 ++ [(clock (it + 1), c')]) h0
            · simp only
              cases hl : st.2.2 with
              | nil => rw [hl] at hhead; cases hhead
              | cons a rest =>
                  rw [hl] at hhead
                  simpa using hhead
            · simp only
              rw [List.chain'_append]
              refine ⟨hchain, List.chain'_singleton _, ?_⟩
              intro x hx ylast hy
              simp only [List.head?_cons, Option.mem_def,
                Option.some.injEq] at hy
              subst hy
              have hx' : st.2.2.getLast? = some x := hx
              constructor
              · apply htime
                obtain ⟨hne, hxl⟩ := List.mem_getLast?_eq_getLast hx
                rw [hxl]
                exact List.getLast_mem hne
              · rw [hx'] at hlast
                simp at hlast
                simp only
                rw [hlast]
                exact le_of_lt himp
            · simp only
              rw [List.getLast?_append_cons]
              simp
            · intro e he
              simp only at he
              rcases List.mem_append.mp he with hin | hin
              · exact htime' e hin
              · simp only [List.mem_singleton] at hin
                subst hin
                exact hmono (it + 1) (it + 2) (by omega)
          · rw [if_neg himp]
            exact ih (it + 1) st h0 hhead hchain hlast htime'

/-- In `decode_solution`, the production plan and the inventory plan
are present or absent together. -/
theorem decode_some_iff (y : List ℕ) (d C s p h : List ℚ) :
    (decode_solution y d C s p h).1.isSome =
      (decode_solution y d C s p h).2.1.isSome := by
  rw [decode_solution_eq]
  by_cases hb : (backwardPass y d C).2 > 1 / 1000000
  · rw [if_pos hb]
  · rw [if_neg hb]
    rcases forwardPass (backwardPass y d C).1 d 0 with e | I
    · rfl
    · rfl

/-- The driver loop never empties the convergence log. -/
theorem graspLoop_ne (d C s p h : List ℚ) (alpha : ℚ) (L_max : ℕ)
    (picks : ℕ → ℕ → ℕ) (chkOuter : ℕ → Bool) (chkLS : ℕ → ℕ → Bool)
    (lsFuel : ℕ) (clock : ℕ → ℚ) (iters : ℕ) :
    ∀ (it : ℕ) (st : List ℕ × ℚ × List (ℚ × ℚ)),
      st.2.2 ≠ [] →
      (graspLoop d C s p h alpha L_max picks chkOuter chkLS lsFuel clock
          iters it st).2.2 ≠ [] := by
  induction iters with
  | zero => intro it st hne; exact hne
  | succ iters ih =>
      intro it st hne
      rw [graspLoop]
      by_cases hchk : chkOuter it
      · simp only [hchk, if_true]
        exact hne
      · simp only [hchk, Bool.false_eq_true, if_false]
        by_cases hskip : BIGM / 2 ≤
            (decode_solution
              (greedy_randomized_construction d C s p h alpha
                (min L_max d.length) (picks it)) d C s p h).2.2
        · rw [if_pos hskip]
          exact ih (it + 1) st hne
        · rw [if_neg hskip]
          rcases local_search
              (greedy_randomized_construction d C s p h alpha
                (min L_max d.length) (picks it)) d C s p h (chkLS it)
              lsFuel with ⟨y', c'⟩
          by_cases himp : c' < st.2.1
          · rw [if_pos himp]
            apply ih (it + 1)
            simp
          · rw [if_neg himp]
            exact ih (it + 1) st hne

/-- Claim C4: for every instance, every starting vector, every deadline
configuration (the oracle `chk` covers every possible pattern of
wall-clock interruptions, including mid-sweep ones) and every amount of
loop fuel, `local_search` returns a cost no larger than the decoded
cost of its starting vector. -/
theorem local_search_monotone (y : List ℕ) (d C s p h : List ℚ)
    (chk : ℕ → Bool) (fuel : ℕ) :
    (local_search y d C s p h chk fuel).2 ≤
      (decode_solution y d C s p h).2.2 :=
  local_search_le y d C s p h chk fuel

/-- Claim C9: `local_search` always returns a pair whose cost is
exactly the decoded cost of the returned vector, and `grasp` always
returns a best cost equal to the decoded cost of the returned best
vector, with the returned `X`, `I` exactly the plan of that decode. -/
theorem search_cost_consistent :
    (∀ (y : List ℕ) (d C s p h : List ℚ) (chk : ℕ → Bool) (fuel : ℕ),
        (decode_solution (local_search y d C s p h chk fuel).1
            d C s p h).2.2 =
          (local_search y d C s p h chk fuel).2) ∧
      (∀ (d C s p h : List ℚ) (max_iter : ℕ) (alpha : ℚ) (L_max : ℕ)
          (picks : ℕ → ℕ → ℕ) (chkOuter : ℕ → Bool)
          (chkLS : ℕ → ℕ → Bool) (lsFuel : ℕ) (clock : ℕ → ℚ),
        (decode_solution
              (grasp d C s p h max_iter alpha L_max picks chkOuter chkLS
                lsFuel clock).best_y d C s p h).2.2 =
            (grasp d C s p h max_iter alpha L_max picks chkOuter chkLS
              lsFuel clock).best_cost ∧
          (grasp d C s p h max_iter alpha L_max picks chkOuter chkLS
                lsFuel clock).X =
            (decode_solution
              (grasp d C s p h max_iter alpha L_max picks chkOuter chkLS
                lsFuel clock).best_y d C s p h).1 ∧
          (grasp d C s p h max_iter alpha L_max picks chkOuter chkLS
                lsFuel clock).I =
            (decode_solution
              (grasp d C s p h max_iter alpha L_max picks chkOuter chkLS
                lsFuel clock).best_y d C s p h).2.1) := by
  constructor
  · intro y d C s p h chk fuel
    exact local_search_decode y d C s p h chk fuel
  · intro d C s p h max_iter alpha L_max picks chkOuter chkLS lsFuel clock
    obtain ⟨h1, h2, h3, _⟩ := grasp_decode_best d C s p h max_iter alpha
      L_max picks chkOuter chkLS lsFuel clock
    exact ⟨h1, h2, h3⟩

/-- Claim C5: `grasp` is a total function (modelled as such, it can
never raise), it always returns a best-effort result with a non-empty
convergence log, the feasibility flag seen by callers is computed
exactly as `best_cost < BIGM / 2`, and whenever that flag is true the
returned plan components `X`, `I` are actually present. -/
theorem grasp_never_raises (d C s p h : List ℚ) (max_iter : ℕ)
    (alpha : ℚ) (L_max : ℕ) (picks : ℕ → ℕ → ℕ) (chkOuter : ℕ → Bool)
    (chkLS : ℕ → ℕ → Bool) (lsFuel : ℕ) (clock : ℕ → ℚ) :
    (factivel
          (grasp d C s p h max_iter alpha L_max picks chkOuter chkLS
            lsFuel clock).best_cost = true ↔
        (grasp d C s p h max_iter alpha L_max picks chkOuter chkLS lsFuel
            clock).best_cost < BIGM / 2) ∧
      (grasp d C s p h max_iter alpha L_max picks chkOuter chkLS lsFuel
          clock).log_convergencia ≠ [] ∧
      (factivel
          (grasp d C s p h max_iter alpha L_max picks chkOuter chkLS
            lsFuel clock).best_cost = true →
        (grasp d C s p h max_iter alpha L_max picks chkOuter chkLS lsFuel
              clock).X.isSome = true ∧
          (grasp d C s p h max_iter alpha L_max picks chkOuter chkLS
              lsFuel clock).I.isSome = true) := by
  obtain ⟨hdec, hX, hI, _⟩ := grasp_decode_best d C s p h max_iter alpha
    L_max picks chkOuter chkLS lsFuel clock
  refine ⟨by simp [factivel], ?_, ?_⟩
  · apply graspLoop_ne
    simp
  · intro hflag
    have hlt : (grasp d C s p h max_iter alpha L_max picks chkOuter chkLS
        lsFuel clock).best_cost < BIGM / 2 := by
      simpa [factivel] using hflag
    have hBM : (0:ℚ) < BIGM := by norm_num [BIGM]
    have hsome : (decode_solution
        (grasp d C s p h max_iter alpha L_max picks chkOuter chkLS lsFuel
          clock).best_y d C s p h).1.isSome = true := by
      rcases hn : (decode_solution
          (grasp d C s p h max_iter alpha L_max picks chkOuter chkLS
            lsFuel clock).best_y d C s p h).1 with _ | X0
      · exfalso
        have := decode_infeasible_gt _ d C s p h hn
        rw [hdec] at this
        linarith
      · rfl
    constructor
    · rw [hX]
      exact hsome
    · rw [hI, ← decode_some_iff]
      exact hsome

/-- Claim C8: under a monotone wall clock that advances by at least the
`1e-6` initial offset before the first iteration's sample, the
convergence log returned by `grasp` starts with the sample of the
trivial all-ones fallback, is non-decreasing in elapsed time and
non-increasing in cost, ends at the returned best cost, and the
returned best cost never exceeds the cost of the trivial fallback (the
driver's best cost is non-increasing across iterations). -/
theorem grasp_convergence_log (d C s p h : List ℚ) (max_iter : ℕ)
    (alpha : ℚ) (L_max : ℕ) (picks : ℕ → ℕ → ℕ) (chkOuter : ℕ → Bool)
    (chkLS : ℕ → ℕ → Bool) (lsFuel : ℕ) (clock : ℕ → ℚ)
    (hmono : ∀ i j : ℕ, i ≤ j → clock i ≤ clock j)
    (hgap : clock 0 + 1 / 1000000 ≤ clock 1) :
    (grasp d C s p h max_iter alpha L_max picks chkOuter chkLS lsFuel
          clock).log_convergencia.head? =
        some (clock 0 + 1 / 1000000,
          (decode_solution (List.replicate d.length 1) d C s p h).2.2) ∧
      List.Chain' (fun a b : ℚ × ℚ => a.1 ≤ b.1 ∧ b.2 ≤ a.2)
        (grasp d C s p h max_iter alpha L_max picks chkOuter chkLS lsFuel
          clock).log_convergencia ∧
      Option.map Prod.snd
          (grasp d C s p h max_iter alpha L_max picks chkOuter chkLS
            lsFuel clock).log_convergencia.getLast? =
        some (grasp d C s p h max_iter alpha L_max picks chkOuter chkLS
          lsFuel clock).best_cost ∧
      (grasp d C s p h max_iter alpha L_max picks chkOuter chkLS lsFuel
          clock).best_cost ≤
        (decode_solution (List.replicate d.length 1) d C s p h).2.2 := by
  have hlog := graspLoop_log d C s p h alpha L_max picks chkOuter chkLS
    lsFuel clock hmono max_iter 0
    (List.replicate d.length 1,
      (decode_solution (List.replicate d.length 1) d C s p h).2.2,
      [(clock 0 + 1 / 1000000,
        (decode_solution (List.replicate d.length 1) d C s p h).2.2)])
    (clock 0 + 1 / 1000000,
      (decode_solution (List.replicate d.length 1) d C s p h).2.2)
    (by simp) (List.chain'_singleton _) (by simp) ?_
  · refine ⟨hlog.1, hlog.2.1, hlog.2.2, ?_⟩
    exact graspLoop_best_le d C s p h alpha L_max picks chkOuter chkLS
      lsFuel clock max_iter 0 _
  · intro e he
    simp only [List.mem_singleton] at he
    subst he
    exact hgap

/-- Claim C6, counterexample to the claim as stated.  The instance
`d = [1 + 1e-7]`, `C = [1]` (costs zero) has total demand strictly
greater than total capacity, yet the decoder's `1e-6` residual and
inventory tolerances absorb the `1e-7` excess: the setup vector `[1]`
decodes to a non-penalized score `0 < BIGM`, not a penalized score
`≥ BIGM`. -/
theorem overdemand_counterexample :
    ([(1:ℚ)].sum < [(1:ℚ) + 1 / 10000000].sum) ∧
      (decode_solution [1] [1 + 1 / 10000000] [1] [0] [0] [0]).2.2 <
        BIGM := by
  constructor
  · norm_num
  · norm_num [decode_solution, backwardPass, forwardPass, planCost, BIGM,
      PENALTY]

/-- Claim C6, amended: when total demand exceeds total capacity by more
than the decoder's `1e-6` tolerance (capacities non-negative, as the
data model requires), `decode_solution` returns a penalized score
`≥ BIGM` for every setup vector of the instance length, and the driver
(a total function, so it always terminates) reports the feasibility
flag false for every parameter and oracle choice. -/
theorem overdemand_infeasible (d C s p h : List ℚ)
    (hC : C.length = d.length) (hCnn : ∀ c ∈ C, 0 ≤ c)
    (hover : C.sum + 1 / 1000000 < d.sum) :
    (∀ y : List ℕ, y.length = d.length →
        BIGM ≤ (decode_solution y d C s p h).2.2) ∧
      (∀ (max_iter : ℕ) (alpha : ℚ) (L_max : ℕ) (picks : ℕ → ℕ → ℕ)
          (chkOuter : ℕ → Bool) (chkLS : ℕ → ℕ → Bool) (lsFuel : ℕ)
          (clock : ℕ → ℚ),
        factivel
            (grasp d C s p h max_iter alpha L_max picks chkOuter chkLS
              lsFuel clock).best_cost = false) := by
  have hpart1 : ∀ y : List ℕ, y.length = d.length →
      BIGM ≤ (decode_solution y d C s p h).2.2 := by
    intro y hy
    have htel := backwardPass_snd_eq y d C hy hC
    have hXle := backwardPass_fst_sum_le y d C hCnn
    have hR : 1 / 1000000 < (backwardPass y d C).2 := by
      rw [htel]
      linarith
    rw [decode_solution_eq, if_pos hR]
    have hP : (0:ℚ) < PENALTY := by norm_num [PENALTY]
    have : 0 < (backwardPass y d C).2 * PENALTY := by
      apply mul_pos _ hP
      have : (0:ℚ) < 1 / 1000000 := by norm_num
      linarith
    simp only
    linarith
  refine ⟨hpart1, ?_⟩
  intro max_iter alpha L_max picks chkOuter chkLS lsFuel clock
  obtain ⟨hdec, _, _, hlen⟩ := grasp_decode_best d C s p h max_iter alpha
    L_max picks chkOuter chkLS lsFuel clock
  have hbig := hpart1 _ hlen
  rw [hdec] at hbig
  have hBM : (0:ℚ) < BIGM := by norm_num [BIGM]
  simp only [factivel, decide_eq_false_iff_not, not_lt]
  linarith

/-- Witness for `overdemand_infeasible` at spec scenario B:
`C = [1, 1, 1]`, `d = [10, 10, 10]`. -/
theorem overdemand_infeasible_witness :
    BIGM ≤
        (decode_solution [1, 1, 1] [10, 10, 10] [1, 1, 1] [0, 0, 0]
          [0, 0, 0] [0, 0, 0]).2.2 ∧
      factivel
          (grasp [10, 10, 10] [1, 1, 1] [0, 0, 0] [0, 0, 0] [0, 0, 0] 1 0
            1 (fun _ _ => 0) (fun _ => false) (fun _ _ => false) 1
            (fun _ => 0)).best_cost = false := by
  have hC : ([ (1:ℚ), 1, 1]).length = ([(10:ℚ), 10, 10]).length := rfl
  have hCnn : ∀ c ∈ [(1:ℚ), 1, 1], 0 ≤ c := by
    intro c hc
    simp at hc
    norm_num [hc]
  have hover : ([(1:ℚ), 1, 1]).sum + 1 / 1000000 <
      ([(10:ℚ), 10, 10]).sum := by norm_num
  constructor
  · exact (overdemand_infeasible [10, 10, 10] [1, 1, 1] [0, 0, 0]
      [0, 0, 0] [0, 0, 0] hC hCnn hover).1 [1, 1, 1] rfl
  · exact (overdemand_infeasible [10, 10, 10] [1, 1, 1] [0, 0, 0]
      [0, 0, 0] [0, 0, 0] hC hCnn hover).2 1 0 1 (fun _ _ => 0)
      (fun _ => false) (fun _ _ => false) 1 (fun _ => 0)

/-- Witness for `grasp_never_raises` at the instance `d = C = s = p =
h = [1]` with `max_iter = 0`: the flag is true and the plan is
present. -/
theorem grasp_never_raises_witness :
    factivel
        (grasp [1] [1] [1] [1] [1] 0 0 1 (fun _ _ => 0) (fun _ => false)
          (fun _ _ => false) 0 (fun _ => 0)).best_cost = true ∧
      (grasp [1] [1] [1] [1] [1] 0 0 1 (fun _ _ => 0) (fun _ => false)
          (fun _ _ => false) 0 (fun _ => 0)).X.isSome = true ∧
      (grasp [1] [1] [1] [1] [1] 0 0 1 (fun _ _ => 0) (fun _ => false)
          (fun _ _ => false) 0 (fun _ => 0)).I.isSome = true := by
  have hflag : factivel
      (grasp [1] [1] [1] [1] [1] 0 0 1 (fun _ _ => 0) (fun _ => false)
        (fun _ _ => false) 0 (fun _ => 0)).best_cost = true := by
    norm_num [grasp, graspLoop, decode_solution, backwardPass,
      forwardPass, planCost, factivel, BIGM]
  exact ⟨hflag,
    (grasp_never_raises [1] [1] [1] [1] [1] 0 0 1 (fun _ _ => 0)
      (fun _ => false) (fun _ _ => false) 0 (fun _ => 0)).2.2 hflag⟩

/-- Witness for `grasp_convergence_log` with the clock `i ↦ i` on the
instance `d = C = s = p = h = [1]`, `max_iter = 0`. -/
theorem grasp_convergence_log_witness :
    ((fun i : ℕ => (i : ℚ)) 0 + 1 / 1000000 ≤ (fun i : ℕ => (i : ℚ)) 1) ∧
      (grasp [1] [1] [1] [1] [1] 0 0 1 (fun _ _ => 0) (fun _ => false)
            (fun _ _ => false) 0 fun i : ℕ =>
            (i : ℚ)).log_convergencia.head? =
        some ((fun i : ℕ => (i : ℚ)) 0 + 1 / 1000000,
          (decode_solution (List.replicate ([(1:ℚ)]).length 1) [1] [1] [1]
            [1] [1]).2.2) ∧
      List.Chain' (fun a b : ℚ × ℚ => a.1 ≤ b.1 ∧ b.2 ≤ a.2)
        (grasp [1] [1] [1] [1] [1] 0 0 1 (fun _ _ => 0) (fun _ => false)
          (fun _ _ => false) 0 fun i : ℕ => (i : ℚ)).log_convergencia ∧
      Option.map Prod.snd
          (grasp [1] [1] [1] [1] [1] 0 0 1 (fun _ _ => 0)
            (fun _ => false) (fun _ _ => false) 0 fun i : ℕ =>
            (i : ℚ)).log_convergencia.getLast? =
        some (grasp [1] [1] [1] [1] [1] 0 0 1 (fun _ _ => 0)
          (fun _ => false) (fun _ _ => false) 0 fun i : ℕ =>
          (i : ℚ)).best_cost := by
  have hmono : ∀ i j : ℕ, i ≤ j →
      (fun i : ℕ => (i : ℚ)) i ≤ (fun i : ℕ => (i : ℚ)) j := by
    intro i j hij
    show (i : ℚ) ≤ (j : ℚ)
    exact_mod_cast hij
  have hgap : (fun i : ℕ => (i : ℚ)) 0 + 1 / 1000000 ≤
      (fun i : ℕ => (i : ℚ)) 1 := by norm_num
  have hmain := grasp_convergence_log [1] [1] [1] [1] [1] 0 0 1
    (fun _ _ => 0) (fun _ => false) (fun _ _ => false) 0
    (fun i : ℕ => (i : ℚ)) hmono hgap
  exact ⟨hgap, hmain.1, hmain.2.1, hmain.2.2.1⟩

/-! Constructor RCL lemmas. -/

theorem listMin_le : ∀ (l : List ℚ), ∀ c ∈ l, listMin l ≤ c
  | [], c, hc => absurd hc (List.not_mem_nil c)
  | [a], c, hc => by
      simp at hc
      simp [listMin, hc]
  | a :: a' :: rest, c, hc => by
      rcases List.mem_cons.mp hc with hce | hc'
      · subst hce
        show min c (listMin (a' :: rest)) ≤ c
        exact min_le_left _ _
      · calc listMin (a :: a' :: rest)
            = min a (listMin (a' :: rest)) := rfl
          _ ≤ listMin (a' :: rest) := min_le_right _ _
          _ ≤ c := listMin_le (a' :: rest) c hc'

theorem le_listMax : ∀ (l : List ℚ), ∀ c ∈ l, c ≤ listMax l
  | [], c, hc => absurd hc (List.not_mem_nil c)
  | [a], c, hc => by
      simp at hc
      simp [listMax, hc]
  | a :: a' :: rest, c, hc => by
      rcases List.mem_cons.mp hc with hce | hc'
      · subst hce
        show c ≤ max c (listMax (a' :: rest))
        exact le_max_left _ _
      · calc c ≤ listMax (a' :: rest) := le_listMax (a' :: rest) c hc'
          _ ≤ max a (listMax (a' :: rest)) := le_max_right _ _
          _ = listMax (a :: a' :: rest) := rfl

/-- Claim C7: at every cursor position of
`greedy_randomized_construction` (the candidate list and RCL below are
exactly the ones its loop evaluates), with `alpha = 0` the RCL contains
exactly the minimum-average-cost candidates — so any selected lot is
one of minimum average cost, and the unique one when the minimum is
unique — and with `alpha = 1` (under the claim's proviso
`c_min < c_max`) every evaluated candidate lot length belongs to the
RCL offered to the uniform random selection. -/
theorem rcl_bounds (d C s p h : List ℚ) (L_max t : ℕ) :
    (rclOf (candidatesAt d C s p h L_max t) 0 =
        ((candidatesAt d C s p h L_max t).filter fun lc =>
          decide (lc.2 =
            listMin ((candidatesAt d C s p h L_max t).map
              Prod.snd))).map Prod.fst) ∧
      (listMin ((candidatesAt d C s p h L_max t).map Prod.snd) <
          listMax ((candidatesAt d C s p h L_max t).map Prod.snd) →
        ∀ lc ∈ candidatesAt d C s p h L_max t,
          lc.1 ∈ rclOf (candidatesAt d C s p h L_max t) 1) := by
  constructor
  · rw [rclOf]
    congr 1
    apply List.filter_congr
    intro lc hlc
    have hmin : listMin ((candidatesAt d C s p h L_max t).map Prod.snd) ≤
        lc.2 :=
      listMin_le _ _ (List.mem_map_of_mem Prod.snd hlc)
    have : (lc.2 ≤ listMin ((candidatesAt d C s p h L_max t).map
          Prod.snd) +
          0 * (listMax ((candidatesAt d C s p h L_max t).map Prod.snd) -
            listMin ((candidatesAt d C s p h L_max t).map Prod.snd) +
            1 / 1000000000)) ↔
        (lc.2 = listMin ((candidatesAt d C s p h L_max t).map
          Prod.snd)) := by
      rw [zero_mul, add_zero]
      exact ⟨fun hle => le_antisymm hle hmin, fun heq => le_of_eq heq⟩
    exact decide_eq_decide.mpr this
  · intro _hlt lc hlc
    rw [rclOf]
    apply List.mem_map_of_mem Prod.fst
    rw [List.mem_filter]
    refine ⟨hlc, ?_⟩
    rw [decide_eq_true_eq]
    have hmax : lc.2 ≤
        listMax ((candidatesAt d C s p h L_max t).map Prod.snd) :=
      le_listMax _ _ (List.mem_map_of_mem Prod.snd hlc)
    have : (0:ℚ) < 1 / 1000000000 := by norm_num
    linarith

/-- Witness for `rcl_bounds` at the instance `d = [1, 1]`,
`C = [10, 10]`, `s = [1, 1]`, `p = [1, 2]`, `h = [1, 1]`, `L_max = 2`,
cursor 0, where the two candidate lots have distinct average costs. -/
theorem rcl_bounds_witness :
    listMin ((candidatesAt [1, 1] [10, 10] [1, 1] [1, 2] [1, 1] 2 0).map
        Prod.snd) <
      listMax ((candidatesAt [1, 1] [10, 10] [1, 1] [1, 2] [1, 1] 2 0).map
        Prod.snd) ∧
    (1 : ℕ) ∈ rclOf (candidatesAt [1, 1] [10, 10] [1, 1] [1, 2] [1, 1] 2 0)
      1 := by
  have hca : candidatesAt [1, 1] [10, 10] [1, 1] [1, 2] [1, 1] 2 0 =
      [(1, avgCost [1, 1] [1, 1] [1, 2] [1, 1] 0 1),
       (2, avgCost [1, 1] [1, 1] [1, 2] [1, 1] 0 2)] := by
    norm_num [candidatesAt, lotDemand, List.range', List.range_succ]
  have hv1 : avgCost [1, 1] [1, 1] [1, 2] [1, 1] 0 1 =
      2 / (1 + 1 / 1000000000) := by
    norm_num [avgCost, lotDemand, lotProdCost, lotHoldCost,
      List.range_succ]
  have hv2 : avgCost [1, 1] [1, 1] [1, 2] [1, 1] 0 2 =
      5 / (2 + 1 / 1000000000) := by
    norm_num [avgCost, lotDemand, lotProdCost, lotHoldCost,
      List.range_succ]
  have hlt : listMin ((candidatesAt [1, 1] [10, 10] [1, 1] [1, 2] [1, 1]
        2 0).map Prod.snd) <
      listMax ((candidatesAt [1, 1] [10, 10] [1, 1] [1, 2] [1, 1] 2
        0).map Prod.snd) := by
    rw [hca]
    simp only [List.map_cons, List.map_nil, listMin, listMax, hv1, hv2]
    rw [min_def, max_def]
    norm_num
  refine ⟨hlt, ?_⟩
  have := (rcl_bounds [1, 1] [10, 10] [1, 1] [1, 2] [1, 1] 2 0).2 hlt
    (1, avgCost [1, 1] [1, 1] [1, 2] [1, 1] 0 1)
    (by rw [hca]; simp)
  exact this

/-! Constructor progress lemmas for the implicit claim C10. -/

theorem getD_zero_set_one (y : List ℕ) (t : ℕ)
    (h0 : y.getD 0 0 = 1) : (y.set t 1).getD 0 0 = 1 := by
  cases y with
  | nil => simp at h0
  | cons a l =>
      cases t with
      | zero => simp
      | succ t => simpa using h0

theorem constructionLoop_getD_zero (d C s p h : List ℚ) (alpha : ℚ)
    (L_max : ℕ) (pick : ℕ → ℕ) (fuel : ℕ) :
    ∀ (t k : ℕ) (y : List ℕ),
      y.getD 0 0 = 1 →
      (constructionLoop d C s p h alpha L_max pick fuel t k y).getD 0 0 =
        1 := by
  induction fuel with
  | zero => intro t k y h0; simpa [constructionLoop] using h0
  | succ fuel ih =>
      intro t k y h0
      rw [constructionLoop]
      by_cases ht : t < d.length
      · rw [if_pos ht]
        by_cases hc : candidatesAt d C s p h L_max t = []
        · rw [if_pos hc]
          exact ih _ _ _ (getD_zero_set_one y t h0)
        · rw [if_neg hc]
          exact ih _ _ _ (getD_zero_set_one y t h0)
      · rw [if_neg ht]
        exact h0

/-- Claim C10: for every instance with at least one period and any
`alpha`, `L_max` and random oracle, the setup vector built by
`greedy_randomized_construction` has a setup at period 0: both the RCL
branch and the forced-fallback branch set the vector at the current
cursor before advancing it, and no later step ever clears a set
entry. -/
theorem construction_setup_at_zero (d C s p h : List ℚ) (alpha : ℚ)
    (L_max : ℕ) (pick : ℕ → ℕ) (hT : 1 ≤ d.length) :
    (greedy_randomized_construction d C s p h alpha L_max pick).getD 0 0 =
      1 := by
  obtain ⟨n, hn⟩ : ∃ n, d.length = n + 1 := ⟨d.length - 1, by omega⟩
  rw [greedy_randomized_construction, hn]
  have hy : ((List.replicate (n + 1) (0:ℕ)).set 0 1).getD 0 0 = 1 := by
    simp [List.replicate_succ]
  rw [constructionLoop]
  rw [if_pos (by omega : 0 < d.length)]
  by_cases hc : candidatesAt d C s p h L_max 0 = []
  · rw [if_pos hc]
    exact constructionLoop_getD_zero d C s p h alpha L_max pick n _ _ _ hy
  · rw [if_neg hc]
    exact constructionLoop_getD_zero d C s p h alpha L_max pick n _ _ _ hy

/-- Witness for `construction_setup_at_zero` at the instance
`d = C = s = p = h = [1]`. -/
theorem construction_setup_at_zero_witness :
    (greedy_randomized_construction [1] [1] [1] [1] [1] 0 1
        fun _ => 0).getD 0 0 = 1 :=
  construction_setup_at_zero [1] [1] [1] [1] [1] 0 1 (fun _ => 0)
    (by norm_num)

/-! Equivalence of the structural decoder with the index-based decoder
written from the spec's words (claim C3). -/

/-- A fold whose step function preserves a fixed head element and acts
on the tail like a given step function lifts through the head. -/
theorem foldl_pair_lift {α : Type} (f g : List ℚ × ℚ → α → List ℚ × ℚ)
    (x0 : ℚ)
    (hfg : ∀ (X : List ℚ) (R : ℚ) (a : α),
      f (x0 :: X, R) a = (x0 :: (g (X, R) a).1, (g (X, R) a).2)) :
    ∀ (l : List α) (X : List ℚ) (R : ℚ),
      List.foldl f (x0 :: X, R) l =
        (x0 :: (List.foldl g (X, R) l).1, (List.foldl g (X, R) l).2) := by
  intro l
  induction l with
  | nil => intro X R; rfl
  | cons a l ih =>
      intro X R
      rw [List.foldl_cons, List.foldl_cons, hfg]
      have hih := ih (g (X, R) a).1 (g (X, R) a).2
      rw [Prod.mk.eta] at hih
      exact hih

theorem backwardPass_length (y : List ℕ) (d C : List ℚ)
    (hy : y.length = d.length) (hC : C.length = d.length) :
    (backwardPass y d C).1.length = d.length := by
  induction y generalizing d C with
  | nil =>
      cases d with
      | nil => simp [backwardPass_nil]
      | cons d0 ds => simp at hy
  | cons y0 ys ih =>
      cases d with
      | nil => simp at hy
      | cons d0 ds =>
          cases C with
          | nil => simp at hC
          | cons C0 Cs =>
              have hy' : ys.length = ds.length := by simpa using hy
              have hC' : Cs.length = ds.length := by simpa using hC
              rw [backwardPass_cons]
              by_cases h1 : y0 = 1
              · rw [if_pos h1]
                simp [ih ds Cs hy' hC']
              · rw [if_neg h1]
                simp [ih ds Cs hy' hC']

/-- The structural backward pass equals the spec's backward loop
`for t in range(T-1, -1, -1)` over a preallocated array. -/
theorem backwardPass_eq_bstep (y : List ℕ) (d C : List ℚ)
    (hy : y.length = d.length) (hC : C.length = d.length) :
    backwardPass y d C =
      ((List.range d.length).reverse).foldl (bstep y d C)
        (List.replicate d.length 0, 0) := by
  induction d generalizing y C with
  | nil =>
      cases y with
      | nil =>
          cases C with
          | nil => rfl
          | cons C0 Cs => simp at hC
      | cons y0 ys => simp at hy
  | cons d0 ds ih =>
      cases y with
      | nil => simp at hy
      | cons y0 ys =>
          cases C with
          | nil => simp at hC
          | cons C0 Cs =>
              have hy' : ys.length = ds.length := by simpa using hy
              have hC' : Cs.length = ds.length := by simpa using hC
              have hlift : ∀ (X : List ℚ) (R : ℚ) (t : ℕ),
                  bstep (y0 :: ys) (d0 :: ds) (C0 :: Cs)
                      ((0:ℚ) :: X, R) (t + 1) =
                    (0 :: (bstep ys ds Cs (X, R) t).1,
                      (bstep ys ds Cs (X, R) t).2) := by
                intro X R t
                unfold bstep
                by_cases h1 : ys.getD t 0 = 1
                · rw [if_pos (show (y0 :: ys).getD (t + 1) 0 = 1 from h1),
                    if_pos h1]
                  rfl
                · rw [if_neg (show ¬(y0 :: ys).getD (t + 1) 0 = 1 from h1),
                    if_neg h1]
                  rfl
              have hmain : ((List.range (ds.length + 1)).reverse).foldl
                  (bstep (y0 :: ys) (d0 :: ds) (C0 :: Cs))
                  (List.replicate (ds.length + 1) (0:ℚ), (0:ℚ)) =
                  bstep (y0 :: ys) (d0 :: ds) (C0 :: Cs)
                    ((0:ℚ) :: (backwardPass ys ds Cs).1,
                      (backwardPass ys ds Cs).2) 0 := by
                rw [List.range_succ_eq_map, List.reverse_cons,
                  List.foldl_append, List.foldl_cons, List.foldl_nil,
                  ← List.map_reverse, List.foldl_map, List.replicate_succ]
                congr 1
                rw [foldl_pair_lift _ (bstep ys ds Cs) 0
                  (fun X R t => hlift X R t)]
                rw [ih ys Cs hy' hC']
              simp only [List.length_cons]
              rw [hmain]
              rw [backwardPass_cons]
              by_cases h1 : y0 = 1
              · rw [if_pos h1]
                simp [bstep, h1]
              · rw [if_neg h1]
                simp [bstep, h1]

theorem foldl_error_absorb
    (f : Except ℚ (List ℚ × ℚ) → ℕ → Except ℚ (List ℚ × ℚ))
    (hferr : ∀ (e : ℚ) (t : ℕ), f (.error e) t = .error e) :
    ∀ (l : List ℕ) (e : ℚ), List.foldl f (.error e) l = .error e := by
  intro l
  induction l with
  | nil => intro e; rfl
  | cons t ts ih =>
      intro e
      rw [List.foldl_cons, hferr]
      exact ih e

/-- A fold on `Except`-valued forward states whose step preserves a
fixed head of the inventory array lifts through that head. -/
theorem foldl_except_lift
    (f g : Except ℚ (List ℚ × ℚ) → ℕ → Except ℚ (List ℚ × ℚ)) (x0 : ℚ)
    (hfg : ∀ (I : List ℚ) (v : ℚ) (t : ℕ),
      f (.ok (x0 :: I, v)) t =
        match g (.ok (I, v)) t with
        | .ok st => .ok (x0 :: st.1, st.2)
        | .error e => .error e)
    (hferr : ∀ (e : ℚ) (t : ℕ), f (.error e) t = .error e)
    (hgerr : ∀ (e : ℚ) (t : ℕ), g (.error e) t = .error e) :
    ∀ (l : List ℕ) (I : List ℚ) (v : ℚ),
      List.foldl f (.ok (x0 :: I, v)) l =
        match List.foldl g (.ok (I, v)) l with
        | .ok st => .ok (x0 :: st.1, st.2)
        | .error e => .error e := by
  intro l
  induction l with
  | nil => intro I v; rfl
  | cons t ts ih =>
      intro I v
      rw [List.foldl_cons, List.foldl_cons, hfg]
      rcases hg : g (.ok (I, v)) t with e | st
      · rw [foldl_error_absorb f hferr, foldl_error_absorb g hgerr]
      · have hih := ih st.1 st.2
        rw [Prod.mk.eta] at hih
        exact hih

theorem forwardPass_ok_length (X d : List ℚ) (v : ℚ) (I : List ℚ)
    (hX : X.length = d.length)
    (hok : forwardPass X d v = .ok I) : I.length = d.length := by
  induction X generalizing d v I with
  | nil =>
      cases d with
      | nil =>
          simp only [forwardPass] at hok
          cases hok
          rfl
      | cons d0 ds => simp at hX
  | cons X0 Xs ih =>
      cases d with
      | nil => simp at hX
      | cons d0 ds =>
          have hX' : Xs.length = ds.length := by simpa using hX
          rw [forwardPass_cons] at hok
          by_cases hc : v + X0 - d0 < -(1 / 1000000)
          · rw [if_pos hc] at hok
            cases hok
          · rw [if_neg hc] at hok
            rcases hr : forwardPass Xs ds (v + X0 - d0) with e | J
            · rw [hr] at hok
              cases hok
            · rw [hr] at hok
              cases hok
              simpa using ih ds (v + X0 - d0) J hX' hr

/-- The structural forward pass equals the spec's forward loop
`for t in range(T)` over a preallocated inventory array. -/
theorem forwardPass_eq_fstep (X d : List ℚ) (v : ℚ)
    (hX : X.length = d.length) :
    forwardPass X d v =
      match (List.range d.length).foldl (fstep X d)
          (Except.ok (List.replicate d.length 0, v)) with
      | .error e => .error e
      | .ok st => .ok st.1 := by
  induction d generalizing X v with
  | nil =>
      cases X with
      | nil => rfl
      | cons X0 Xs => simp at hX
  | cons d0 ds ih =>
      cases X with
      | nil => simp at hX
      | cons X0 Xs =>
          have hX' : Xs.length = ds.length := by simpa using hX
          have hferr : ∀ (e : ℚ) (t : ℕ),
              fstep (X0 :: Xs) (d0 :: ds) (.error e) (t + 1) = .error e :=
            fun e t => rfl
          have hgerr : ∀ (e : ℚ) (t : ℕ),
              fstep Xs ds (.error e) t = .error e := fun e t => rfl
          have hlift : ∀ (I : List ℚ) (w : ℚ) (t : ℕ),
              fstep (X0 :: Xs) (d0 :: ds) (.ok ((v + X0 - d0) :: I, w))
                  (t + 1) =
                match fstep Xs ds (.ok (I, w)) t with
                | .ok st => .ok ((v + X0 - d0) :: st.1, st.2)
                | .error e => .error e := by
            intro I w t
            have hf : fstep (X0 :: Xs) (d0 :: ds)
                (.ok ((v + X0 - d0) :: I, w)) (t + 1) =
                if w + Xs.getD t 0 - ds.getD t 0 < -(1 / 1000000) then
                  Except.error (w + Xs.getD t 0 - ds.getD t 0)
                else
                  Except.ok ((v + X0 - d0) ::
                    I.set t (w + Xs.getD t 0 - ds.getD t 0),
                    w + Xs.getD t 0 - ds.getD t 0) := rfl
            have hg : fstep Xs ds (.ok (I, w)) t =
                if w + Xs.getD t 0 - ds.getD t 0 < -(1 / 1000000) then
                  Except.error (w + Xs.getD t 0 - ds.getD t 0)
                else
                  Except.ok (I.set t (w + Xs.getD t 0 - ds.getD t 0),
                    w + Xs.getD t 0 - ds.getD t 0) := rfl
            rw [hf, hg]
            by_cases hc : w + Xs.getD t 0 - ds.getD t 0 < -(1 / 1000000)
            · rw [if_pos hc, if_pos hc]
            · rw [if_neg hc, if_neg hc]
          rw [forwardPass_cons]
          by_cases hc0 : v + X0 - d0 < -(1 / 1000000)
          · rw [if_pos hc0]
            have hfirst : (List.range (ds.length + 1)).foldl
                (fstep (X0 :: Xs) (d0 :: ds))
                (Except.ok (List.replicate (ds.length + 1) 0, v)) =
                Except.error (v + X0 - d0) := by
              rw [List.range_succ_eq_map, List.foldl_cons]
              have hstep : fstep (X0 :: Xs) (d0 :: ds)
                  (Except.ok (List.replicate (ds.length + 1) 0, v)) 0 =
                  Except.error (v + X0 - d0) := by
                have hf : fstep (X0 :: Xs) (d0 :: ds)
                    (Except.ok (List.replicate (ds.length + 1) 0, v)) 0 =
                    if v + X0 - d0 < -(1 / 1000000) then
                      Except.error (v + X0 - d0)
                    else
                      Except.ok ((v + X0 - d0) ::
                        List.replicate ds.length 0, v + X0 - d0) := rfl
                rw [hf, if_pos hc0]
              rw [hstep, List.foldl_map,
                foldl_error_absorb _ (fun e t => rfl)]
            simp only [List.length_cons]
            rw [hfirst]
          · rw [if_neg hc0]
            have hfirst : fstep (X0 :: Xs) (d0 :: ds)
                (Except.ok (List.replicate (ds.length + 1) 0, v)) 0 =
                Except.ok ((v + X0 - d0) :: List.replicate ds.length 0,
                  v + X0 - d0) := by
              have hf : fstep (X0 :: Xs) (d0 :: ds)
                  (Except.ok (List.replicate (ds.length + 1) 0, v)) 0 =
                  if v + X0 - d0 < -(1 / 1000000) then
                    Except.error (v + X0 - d0)
                  else
                    Except.ok ((v + X0 - d0) ::
                      List.replicate ds.length 0, v + X0 - d0) := rfl
              rw [hf, if_neg hc0]
            have hrest := foldl_except_lift
              (fun st t => fstep (X0 :: Xs) (d0 :: ds) st (t + 1))
              (fstep Xs ds) (v + X0 - d0) hlift hferr hgerr
              (List.range ds.length) (List.replicate ds.length 0)
              (v + X0 - d0)
            simp only [List.length_cons]
            rw [List.range_succ_eq_map, List.foldl_cons, hfirst,
              List.foldl_map, hrest, ih Xs (v + X0 - d0) hX']
            rcases (List.range ds.length).foldl (fstep Xs ds)
                (Except.ok (List.replicate ds.length 0, v + X0 - d0)) with
              e | st
            · rfl
            · rfl

/-- The recursive cost accumulation equals the spec's Σ over
`range T`. -/
theorem planCost_eq_sum (y : List ℕ) (s p h X I : List ℚ)
    (hs : s.length = y.length) (hp : p.length = y.length)
    (hh : h.length = y.length) (hX : X.length = y.length)
    (hI : I.length = y.length) :
    planCost y s p h X I =
      ∑ t in Finset.range y.length,
        (s.getD t 0 * (y.getD t 0 : ℚ) + p.getD t 0 * X.getD t 0 +
          h.getD t 0 * I.getD t 0) := by
  induction y generalizing s p h X I with
  | nil =>
      cases s with
      | nil =>
          cases p with
          | nil =>
              cases h with
              | nil =>
                  cases X with
                  | nil =>
                      cases I with
                      | nil => simp [planCost]
                      | cons I0 Is => simp at hI
                  | cons X0 Xs => simp at hX
              | cons h0 hs2 => simp at hh
          | cons p0 ps => simp at hp
      | cons s0 ss => simp at hs
  | cons y0 ys ih =>
      cases s with
      | nil => simp at hs
      | cons s0 ss =>
          cases p with
          | nil => simp at hp
          | cons p0 ps =>
              cases h with
              | nil => simp at hh
              | cons h0 hs2 =>
                  cases X with
                  | nil => simp at hX
                  | cons X0 Xs =>
                      cases I with
                      | nil => simp at hI
                      | cons I0 Is =>
                          have hs' : ss.length = ys.length := by
                            simpa using hs
                          have hp' : ps.length = ys.length := by
                            simpa using hp
                          have hh' : hs2.length = ys.length := by
                            simpa using hh
                          have hX' : Xs.length = ys.length := by
                            simpa using hX
                          have hI' : Is.length = ys.length := by
                            simpa using hI
                          show s0 * (y0 : ℚ) + p0 * X0 + h0 * I0 +
                              planCost ys ss ps hs2 Xs Is = _
                          rw [ih ss ps hs2 Xs Is hs' hp' hh' hX' hI']
                          simp only [List.length_cons]
                          rw [Finset.sum_range_succ']
                          simp only [List.getD_cons_succ,
                            List.getD_cons_zero]
                          ring

/-- Claim C3: for every instance (equal-length arrays) and every setup
vector of the instance length, `decode_solution` computes exactly what
spec §4.1 prescribes — the backward accumulate-and-produce pass, the
`BIGM + R·PENALTY` residual penalty with absent `X`, `I`, the
`BIGM + |inv|·PENALTY` inventory penalty with absent `X`, `I`, and
otherwise the plan with cost `Σ s[t]·y[t] + p[t]·X[t] + h[t]·I[t]` —
here stated as equality with `decodeSpec`, the decoder transcribed from
the spec's words. -/
theorem decode_matches_spec (y : List ℕ) (d C s p h : List ℚ)
    (hy : y.length = d.length) (hC : C.length = d.length)
    (hs : s.length = d.length) (hp : p.length = d.length)
    (hhl : h.length = d.length) :
    decode_solution y d C s p h = decodeSpec y d C s p h := by
  have hbw := backwardPass_eq_bstep y d C hy hC
  have hXlen : (backwardPass y d C).1.length = d.length :=
    backwardPass_length y d C hy hC
  have hfwd := forwardPass_eq_fstep (backwardPass y d C).1 d 0 hXlen
  rw [decode_solution_eq]
  simp only [decodeSpec]
  rw [← hbw]
  by_cases hb : (backwardPass y d C).2 > 1 / 1000000
  · rw [if_pos hb, if_pos hb]
  · rw [if_neg hb, if_neg hb]
    rw [hfwd]
    rcases hfold : (List.range d.length).foldl
        (fstep (backwardPass y d C).1 d)
        (Except.ok (List.replicate d.length 0, 0)) with e | st
    · rfl
    · have hIlen : st.1.length = d.length := by
        apply forwardPass_ok_length (backwardPass y d C).1 d 0 st.1 hXlen
        rw [hfwd, hfold]
      have hcost := planCost_eq_sum y s p h (backwardPass y d C).1 st.1
        (by rw [hs, hy]) (by rw [hp, hy]) (by rw [hhl, hy])
        (by rw [hXlen, hy]) (by rw [hIlen, hy])
      show (some (backwardPass y d C).1, some st.1,
          planCost y s p h (backwardPass y d C).1 st.1) = _
      rw [hcost, hy]

/-- Witness for `decode_matches_spec` at the concrete instance
`y = [1, 0]`, `d = [1, 1]`, `C = [3, 3]`, `s = p = h = [1, 1]`. -/
theorem decode_matches_spec_witness :
    decode_solution [1, 0] [1, 1] [3, 3] [1, 1] [1, 1] [1, 1] =
      decodeSpec [1, 0] [1, 1] [3, 3] [1, 1] [1, 1] [1, 1] :=
  decode_matches_spec [1, 0] [1, 1] [3, 3] [1, 1] [1, 1] [1, 1] rfl rfl
    rfl rfl rfl

end CSILSP
